import Mathlib

/-!
A shallow embedding, in Lean, of the core of the DSAPrac judge engine
(rust-backend): the output-normalization routines of judge.rs, the
execution primitive of executor.rs, the cached compilation step of
compiler.rs, and the judging orchestration of Judge::judge.

Modelling conventions.  Rust String values are modelled as `List Char`;
u64/usize as `Nat` (none of the arithmetic the claims consult can
overflow u64); anyhow::Result as `Except`; the file system, the
toolchain, the clock and the child process as explicit environment
records whose fields stand for the outcomes of the corresponding system
calls, and whose side effects are recorded as explicit event lists in
source order.  f64 is modelled by exact rationals extended with NaN and
infinity: the only score computations the claims consult are exact in
IEEE double precision (0/0 is NaN; small-integer ratios at concrete
inputs), where this model agrees with the hardware.
-/

namespace DSAPrac

/-- Rust strings, modelled as lists of Unicode scalar values. -/
abbrev Str := List Char

/-- Rust char::is_whitespace: the Unicode White_Space property.
Used by str::trim and str::split_whitespace. -/
def isRustWS (c : Char) : Bool :=
  let n := c.toNat
  n == 0x09 || n == 0x0A || n == 0x0B || n == 0x0C || n == 0x0D ||
  n == 0x20 || n == 0x85 || n == 0xA0 || n == 0x1680 ||
  (decide (0x2000 ≤ n) && decide (n ≤ 0x200A)) || n == 0x2028 ||
  n == 0x2029 || n == 0x202F || n == 0x205F || n == 0x3000

/-- Left half of Rust str::trim. -/
def trimLeft (l : Str) : Str := l.dropWhile isRustWS

/-- Right half of Rust str::trim. -/
def trimRight (l : Str) : Str := (l.reverse.dropWhile isRustWS).reverse

/-- Rust str::trim: drop Unicode whitespace from both ends (the two
halves commute; the composition order here is immaterial). -/
def rustTrim (l : Str) : Str := trimLeft (trimRight l)

/-- Split at every newline, dropping the newline characters; always
returns one more segment than there are newlines.  Backbone of the
Rust str::lines model. -/
def splitNl : Str → List Str
  | [] => [[]]
  | c :: rest =>
    if c = '\n' then [] :: splitNl rest
    else
      match splitNl rest with
      | [] => [[c]]
      | l :: ls => (c :: l) :: ls

/-- Join with newline separators (inverse of `splitNl` on newline-free
segments). -/
def joinNl : List Str → Str
  | [] => []
  | [l] => l
  | l :: l2 :: ls => l ++ '\n' :: joinNl (l2 :: ls)

/-- Drop one trailing carriage return, as Rust lines() does to every
newline-terminated line (the CR of a CRLF terminator). -/
def stripCR1 (l : Str) : Str :=
  if l.getLast? = some '\r' then l.dropLast else l

/-- From raw newline-split segments to Rust lines() output: every
segment but the last was newline-terminated and sheds one trailing CR;
a trailing empty segment (string ending in a newline) is dropped. -/
def formLines : List Str → List Str
  | [] => []
  | [a] => if a = [] then [] else [a]
  | a :: b :: rest => stripCR1 a :: formLines (b :: rest)

/-- Rust str::lines. -/
def rustLines (s : Str) : List Str := formLines (splitNl s)

/-- Worker for str::split_whitespace; `acc` holds the current word,
reversed. -/
def splitWSAux : Str → Str → List Str
  | [], acc => if acc = [] then [] else [acc.reverse]
  | c :: rest, acc =>
    if isRustWS c then
      if acc = [] then splitWSAux rest [] else acc.reverse :: splitWSAux rest []
    else splitWSAux rest (c :: acc)

/-- Rust str::split_whitespace: the maximal runs of non-whitespace. -/
def splitWS (l : Str) : List Str := splitWSAux l []

/-- Join with single-space separators (Rust join(" ")). -/
def joinSpace : List Str → Str
  | [] => []
  | [w] => w
  | w :: v :: ws => w ++ ' ' :: joinSpace (v :: ws)

/-- One line under ignore_extra_whitespace:
line.split_whitespace().collect().join(" ") in judge.rs. -/
def collapseWS (l : Str) : Str := joinSpace (splitWS l)

/-- Apply f to every element except the last (how the CRLF replacement
acts on newline-separated segments: only newline-terminated segments
can end in the CR of a CRLF). -/
def mapButLast (f : Str → Str) : List Str → List Str
  | [] => []
  | [a] => [a]
  | a :: b :: rest => f a :: mapButLast f (b :: rest)

/-- The contribution of the final newline-split segment to lines():
dropped when empty (trailing-newline case), kept verbatim otherwise. -/
def lastPart : Option Str → List Str
  | none => []
  | some a => if a = [] then [] else [a]

/-- Drop leading empty lines (what the final overall trim does to
blank lines at the start of the joined result). -/
def dropBlanksL (ls : List Str) : List Str := ls.dropWhile List.isEmpty

/-- Drop trailing empty lines. -/
def dropBlanksR (ls : List Str) : List Str :=
  (ls.reverse.dropWhile List.isEmpty).reverse

/-- Drop empty lines at both ends. -/
def dropBlanks (ls : List Str) : List Str := dropBlanksL (dropBlanksR ls)

/-- Rust str::replace("\r\n", "\n"): one left-to-right pass replacing
non-overlapping occurrences. -/
def replaceCRLF : Str → Str
  | [] => []
  | '\r' :: '\n' :: rest => '\n' :: replaceCRLF rest
  | c :: rest => c :: replaceCRLF rest

/-- types.rs NormalizationOptions. -/
structure NormalizationOptions where
  normalize_crlf : Bool
  ignore_extra_whitespace : Bool
deriving DecidableEq, Repr

/-- The ignore_extra_whitespace stage of judge.rs:
s.lines().map(collapse).collect().join("\n"). -/
def wsPass (s : Str) : Str := joinNl ((rustLines s).map collapseWS)

/-- The unconditional final stage of judge.rs:
s.lines().map(trim).collect().join("\n").trim(). -/
def finalPass (s : Str) : Str := rustTrim (joinNl ((rustLines s).map rustTrim))

/-- Judge::normalize_output_with (judge.rs): optional CRLF collapse,
optional per-line whitespace collapse, then the unconditional final
pass s.lines().map(trim).join("\n").trim(). -/
def normalize_output_with (opts : NormalizationOptions) (output : Str) : Str :=
  let s1 := if opts.normalize_crlf then replaceCRLF output else output
  let s2 := if opts.ignore_extra_whitespace then wsPass s1 else s1
  finalPass s2

/-- types.rs OverallStatus. -/
inductive OverallStatus where
  | Ok
  | CompileError
  | RuntimeError
  | Timeout
  | UnsupportedLanguage
  | EnvError
deriving DecidableEq, Repr

/-- types.rs Difficulty. -/
inductive Difficulty where
  | Easy
  | Medium
  | Hard
deriving DecidableEq, Repr

/-- types.rs TestCase. -/
structure TestCase where
  input : Str
  expected_output : Str
  is_hidden : Bool
deriving DecidableEq, Repr

/-- types.rs Problem (time_limit in ms, memory_limit in MB). -/
structure Problem where
  id : Str
  title : Str
  description : Str
  difficulty : Difficulty
  time_limit : Nat
  memory_limit : Nat
  test_cases : List TestCase
  tags : List Str
deriving DecidableEq, Repr

/-- types.rs JudgeRequest. -/
structure JudgeRequest where
  code : Str
  problem : Problem
  language : Str
  normalization : NormalizationOptions
deriving DecidableEq, Repr

/-- types.rs ExecutionResult (execution_time in ms, memory_usage in KB). -/
structure ExecutionResult where
  success : Bool
  output : Str
  error : Option Str
  execution_time : Nat
  memory_usage : Nat
deriving DecidableEq, Repr

/-- types.rs TestCaseResult. -/
structure TestCaseResult where
  test_case_id : Nat
  passed : Bool
  execution_result : ExecutionResult
  expected_output : Str
  actual_output : Str
deriving DecidableEq, Repr

/-- Model of f64 restricted to the values the judge can produce: exact
nonnegative fractions (ratio num den denotes num/den, kept unreduced so
that every operation is a computable structural step), plus NaN and
positive infinity.  Exact fraction arithmetic stands in for IEEE
rounding; every score value a claim consults (0/0 giving NaN, and
small-integer ratios at concrete witnesses) is exact in IEEE double
precision, where this model agrees with the hardware. -/
inductive F64 where
  | nan
  | inf
  | ratio (num den : Nat)
deriving DecidableEq, Repr

/-- IEEE f64 division on the fragment above (operands here are always
nonnegative; denominators of operands are nonzero by construction):
0/0 is NaN, x/0 with x > 0 is +inf. -/
def f64Div : F64 → F64 → F64
  | .nan, _ => .nan
  | _, .nan => .nan
  | .inf, .inf => .nan
  | .inf, .ratio _ _ => .inf
  | .ratio _ _, .inf => .ratio 0 1
  | .ratio a b, .ratio c d =>
    if c = 0 then (if a = 0 then .nan else .inf) else .ratio (a * d) (b * c)

/-- IEEE f64 multiplication on the fragment above, of nonnegative
operands (the only use is by the constant 100.0). -/
def f64Mul : F64 → F64 → F64
  | .nan, _ => .nan
  | _, .nan => .nan
  | .inf, _ => .inf
  | _, .inf => .inf
  | .ratio a b, .ratio c d => .ratio (a * c) (b * d)

/-- Conversion of an integer count to f64 (exact for every count a
judge run can produce). -/
def f64OfNat (n : Nat) : F64 := .ratio n 1

/-- judge.rs line 91: (passed_count as f64 / test_case_results.len() as
f64) * 100.0 . -/
def scoreF64 (passed total : Nat) : F64 :=
  f64Mul (f64Div (f64OfNat passed) (f64OfNat total)) (f64OfNat 100)

/-- types.rs SubmissionResult. -/
structure SubmissionResult where
  problem_id : Str
  total_test_cases : Nat
  passed_test_cases : Nat
  test_case_results : List TestCaseResult
  compilation_successful : Bool
  compilation_error : Option Str
  total_execution_time : Nat
  score : F64
  compile_time_ms : Option Nat
  executable_size_bytes : Option Nat
deriving DecidableEq, Repr

/-- types.rs JudgeResponse. -/
structure JudgeResponse where
  success : Bool
  result : Option SubmissionResult
  error : Option Str
  status : OverallStatus
deriving DecidableEq, Repr

/-- Outcome of the tokio::time::timeout(self.time_limit, child.wait())
race in executor.rs line 91: the child exited within the limit (with or
without a successful exit status), the wait itself failed, or the limit
fired first. -/
inductive WaitOutcome where
  | exited (exitOk : Bool)
  | failed (msg : Str)
  | timedOut
deriving DecidableEq, Repr

deriving instance DecidableEq for Except

/-- Environment of one Executor::execute call: the outcomes of the
system interactions the call performs, in source order.  stdoutData and
stderrData are what the drain tasks would collect; elapsedMs is what
start_time.elapsed() reads at the point the wait (or its timeout)
returns; peakMem is the running maximum the sampler task has stored. -/
structure ExecEnv where
  spawn : Except Str Nat
  stdinWrite : Except Str Unit
  stdoutData : Str
  stderrData : Str
  wait : WaitOutcome
  elapsedMs : Nat
  peakMem : Nat
deriving DecidableEq, Repr

/-- Observable steps of one Executor::execute call, recorded in the
order the await points complete in the source. -/
inductive EEvent where
  | spawned
  | stdinWritten
  | samplerSpawned
  | stdoutDrainSpawned
  | stderrDrainSpawned
  | killed
  | reaped
  | stdoutJoined
  | stderrJoined
  | samplerStopped
  | returned
deriving DecidableEq, Repr

/-- The error text of the timeout branch of executor.rs. -/
def tleMsg : Str := "Time limit exceeded".toList

/-- Executor::execute (executor.rs): spawn; await the full stdin write;
spawn the sampler and the two drain tasks; race child.wait() against
the time limit; assemble the ExecutionResult.  Spawn and stdin-write
failures propagate as engine errors (the ? operator); every other
outcome is encoded in the result.  The returned event list records the
side effects in the order the source performs them. -/
def execute (env : ExecEnv) (_input : Str) : Except Str ExecutionResult × List EEvent :=
  match env.spawn with
  | .error _ => (.error ("Failed to start process".toList), [])
  | .ok _pid =>
    match env.stdinWrite with
    | .error _ => (.error ("Failed to write to stdin".toList), [.spawned])
    | .ok _ =>
      let pre : List EEvent :=
        [.spawned, .stdinWritten, .samplerSpawned, .stdoutDrainSpawned,
         .stderrDrainSpawned]
      match env.wait with
      | .exited exitOk =>
        (.ok
          { success := exitOk
            output := env.stdoutData
            error :=
              if exitOk = false ∧ env.stderrData ≠ [] then some env.stderrData
              else none
            execution_time := env.elapsedMs
            memory_usage := env.peakMem },
         pre ++ [.stdoutJoined, .stderrJoined, .samplerStopped, .returned])
      | .failed msg =>
        (.ok
          { success := false
            output := []
            error := some ("Process error: ".toList ++ msg)
            execution_time := env.elapsedMs
            memory_usage := 0 },
         pre ++ [.returned])
      | .timedOut =>
        (.ok
          { success := false
            output := []
            error := some tleMsg
            execution_time := env.elapsedMs
            memory_usage := env.peakMem },
         pre ++ [.killed, .reaped, .stdoutJoined, .stderrJoined,
                 .samplerStopped, .returned])

/-- The judge's per-test unwrap_or_else around Executor::execute
(judge.rs lines 62-71): an engine error from execute degrades to an
ExecutionResult with success = false, empty output, a descriptive
message, and zero time and memory. -/
def execOrFallback (env : ExecEnv) (input : Str) : ExecutionResult :=
  match (execute env input).fst with
  | .ok r => r
  | .error e =>
    { success := false
      output := []
      error := some ("Execution error: ".toList ++ e)
      execution_time := 0
      memory_usage := 0 }

/-- Outcome of the bounded toolchain invocation in compiler.rs
(timeout(Duration::from_secs(10), cmd.output())): the 10 s timeout
fired, the gcc/g++ process could not be started, or it finished with an
exit status and captured stderr. -/
inductive ToolchainOutcome where
  | timedOut
  | spawnFailed
  | finished (exitOk : Bool) (stderr : Str)
deriving DecidableEq, Repr

/-- Environment of one Compiler::compile_c / compile_cpp call: the
on-disk cache contents (the set of cache file names for which
cache_path.exists() is true), and the outcomes of the file-system and
toolchain interactions the call may perform.  exeMeta models
fs::metadata on the built executable (None: the metadata call failed,
in which case the source skips the size check); copyOk models the
best-effort fs::copy into the cache, whose result the source ignores. -/
structure CompilerEnv where
  cache : List Str
  writeOk : Bool
  toolchain : ToolchainOutcome
  exeMeta : Option Nat
  copyOk : Bool
deriving DecidableEq, Repr

/-- Side effects of one compile call that touch disk or the toolchain. -/
inductive CEvent where
  | wroteSource
  | invokedToolchain
  | copiedToCache
deriving DecidableEq, Repr

/-- Result of one compile call: the anyhow::Result value, the side
effects in source order, the cache contents afterwards, and the cache
file name (cache key) the call computed from the source hash and the
language. -/
structure CompileOutput where
  result : Except Str Str
  events : List CEvent
  cacheAfter : List Str
  key : Str
deriving DecidableEq, Repr

/-- Rust str::len on the UTF-8 encoding: code.as_bytes().len(). -/
def strUtf8Len (s : Str) : Nat := (s.map Char.utf8Size).sum

/-- The two compilation languages of compiler.rs. -/
inductive Lang where
  | c
  | cpp
deriving DecidableEq, Repr

/-- The cache file name {hash}_{language}.exe of compiler.rs, for a
given content-hash function (the source uses SHA-1; the claims depend
only on the key being a function of the source bytes and the
language, so the digest function is a parameter). -/
def cacheFile (hash : Str → Str) (code : Str) : Lang → Str
  | .c => hash code ++ "_c.exe".toList
  | .cpp => hash code ++ "_cpp.exe".toList

/-- Shared body of Compiler::compile_c / compile_cpp (compiler.rs; the
two functions are line-for-line identical up to the language suffix,
the toolchain name and the -std flag): probe the cache and return the
cached path on a hit; reject source larger than 256 KiB; write the
source file; run the toolchain under the 10 s timeout; reject
executables larger than 64 MiB when metadata is readable; best-effort
copy into the cache; return the cache path. -/
def compileWith (toolName : Str) (hash : Str → Str) (lang : Lang)
    (env : CompilerEnv) (code : Str) : CompileOutput :=
  let key := cacheFile hash code lang
  if key ∈ env.cache then
    { result := .ok key, events := [], cacheAfter := env.cache, key := key }
  else if strUtf8Len code > 256 * 1024 then
    { result := .error ("Source too large".toList), events := [],
      cacheAfter := env.cache, key := key }
  else if env.writeOk = false then
    { result := .error ("Failed to write source code".toList),
      events := [.wroteSource], cacheAfter := env.cache, key := key }
  else
    match env.toolchain with
    | .timedOut =>
      { result := .error (toolName ++ " timeout".toList),
        events := [.wroteSource, .invokedToolchain],
        cacheAfter := env.cache, key := key }
    | .spawnFailed =>
      { result := .error ("Failed to execute ".toList ++ toolName),
        events := [.wroteSource, .invokedToolchain],
        cacheAfter := env.cache, key := key }
    | .finished exitOk stderr =>
      if exitOk = false then
        { result := .error ("Compilation failed: ".toList ++ stderr),
          events := [.wroteSource, .invokedToolchain],
          cacheAfter := env.cache, key := key }
      else
        let succeeded : CompileOutput :=
          { result := .ok key
            events :=
              [.wroteSource, .invokedToolchain] ++
                (if env.copyOk then [.copiedToCache] else [])
            cacheAfter := if env.copyOk then key :: env.cache else env.cache
            key := key }
        match env.exeMeta with
        | some sz =>
          if sz > 64 * 1024 * 1024 then
            { result := .error ("Executable too large".toList),
              events := [.wroteSource, .invokedToolchain],
              cacheAfter := env.cache, key := key }
          else succeeded
        | none => succeeded

/-- Compiler::compile_c. -/
def compile_c (hash : Str → Str) (env : CompilerEnv) (code : Str) : CompileOutput :=
  compileWith ("gcc".toList) hash .c env code

/-- Compiler::compile_cpp. -/
def compile_cpp (hash : Str → Str) (env : CompilerEnv) (code : Str) : CompileOutput :=
  compileWith ("g++".toList) hash .cpp env code

/-- Language dispatch helper used by the claims that quantify over the
two compile entry points. -/
def compileLang : Lang → (Str → Str) → CompilerEnv → Str → CompileOutput
  | .c => compile_c
  | .cpp => compile_cpp

/-- Rust str::to_lowercase, on the ASCII fragment (the language tags
the judge compares against are ASCII; Unicode full lowercasing differs
only on non-ASCII input, which matches no dispatch arm either way). -/
def rustToLowercase (s : Str) : Str := s.map Char.toLower

/-- One iteration of the test-case loop of Judge::judge (judge.rs lines
56-87): run the executor (with the judge's unwrap_or_else fallback),
normalize actual and expected output, compare, and build the
TestCaseResult carrying the positional index. -/
def runTestCase (opts : NormalizationOptions) (env : ExecEnv) (i : Nat)
    (tc : TestCase) : TestCaseResult :=
  let er := execOrFallback env tc.input
  let actual := normalize_output_with opts er.output
  let expected := normalize_output_with opts tc.expected_output
  { test_case_id := i
    passed := actual = expected
    execution_result := er
    expected_output := tc.expected_output
    actual_output := er.output }

/-- The full test-case loop: one fresh Executor per test case, in input
order; execEnvs i is the environment of the i-th execution. -/
def testResults (opts : NormalizationOptions) (execEnvs : Nat → ExecEnv)
    (tcs : List TestCase) : List TestCaseResult :=
  tcs.enum.map fun p => runTestCase opts (execEnvs p.1) p.1 p.2

/-- The overall-status derivation of judge.rs lines 93-101, verbatim:
all passed, else any result whose error is exactly "Time limit
exceeded", else any failed result with error present (is_some), else
Ok. -/
def overallStatusOf (rs : List TestCaseResult) : OverallStatus :=
  if (rs.filter (·.passed)).length = rs.length then .Ok
  else if rs.any (fun r => r.execution_result.error == some tleMsg) then .Timeout
  else if rs.any (fun r =>
      r.execution_result.success == false && r.execution_result.error.isSome) then
    .RuntimeError
  else .Ok

/-- The status-derivation priority in the words of the specification
(spec.md section 4.3 step 6): every test passed, else an exact "Time
limit exceeded" error on some test, else some test whose execution
failed with a non-empty error, else Ok.  Stated separately from
`overallStatusOf` so the two can be compared. -/
def specStatusOf (rs : List TestCaseResult) : OverallStatus :=
  if rs.all (·.passed) then .Ok
  else if rs.any (fun r => r.execution_result.error == some tleMsg) then .Timeout
  else if rs.any (fun r =>
      r.execution_result.success == false &&
        (match r.execution_result.error with
         | some m => !(m.isEmpty)
         | none => false)) then
    .RuntimeError
  else .Ok

/-- The SubmissionResult assembled by the success branch of
Judge::judge (judge.rs lines 89-114): counts, score, per-test results,
total execution time, and the judge-level compile measurements. -/
def judgeSubmission (execEnvs : Nat → ExecEnv) (compileTimeMs : Nat)
    (exeSizeBytes : Option Nat) (request : JudgeRequest) : SubmissionResult :=
  let rs := testResults request.normalization execEnvs request.problem.test_cases
  { problem_id := request.problem.id
    total_test_cases := rs.length
    passed_test_cases := (rs.filter (·.passed)).length
    test_case_results := rs
    compilation_successful := true
    compilation_error := none
    total_execution_time := (rs.map (·.execution_result.execution_time)).sum
    score := scoreF64 ((rs.filter (·.passed)).length) rs.length
    compile_time_ms := some compileTimeMs
    executable_size_bytes := exeSizeBytes }

/-- Judge::judge (judge.rs): dispatch compilation on the lowercased
language tag; map a compile failure to a CompileError response and an
unknown language to UnsupportedLanguage; otherwise run every test case,
compute the score and the overall status, and assemble the
SubmissionResult.  compileTimeMs and exeSizeBytes model the judge-level
Instant measurement and fs::metadata of the executable. -/
def judgeRun (hash : Str → Str) (cenv : CompilerEnv) (execEnvs : Nat → ExecEnv)
    (compileTimeMs : Nat) (exeSizeBytes : Option Nat)
    (request : JudgeRequest) : JudgeResponse :=
  let lang := rustToLowercase request.language
  let compiled : Option CompileOutput :=
    if lang = "c".toList then some (compile_c hash cenv request.code)
    else if lang = "cpp".toList ∨ lang = "c++".toList then
      some (compile_cpp hash cenv request.code)
    else none
  match compiled with
  | none =>
    { success := false, result := none
      error := some ("Unsupported language: ".toList ++ request.language)
      status := .UnsupportedLanguage }
  | some out =>
    match out.result with
    | .error e =>
      { success := false, result := none
        error := some ("Compilation failed: ".toList ++ e)
        status := .CompileError }
    | .ok _path =>
      { success := true
        result := some (judgeSubmission execEnvs compileTimeMs exeSizeBytes request)
        error := none
        status :=
          overallStatusOf
            (testResults request.normalization execEnvs request.problem.test_cases) }

/-- The error invariant of every execution result the judge's test loop
can hold: an error message, when present, is non-empty, and a
successful execution carries no error.  Established below for every
path of the executor and of the judge's fallback. -/
def wfError (er : ExecutionResult) : Prop :=
  (∀ m, er.error = some m → m ≠ []) ∧ (er.success = true → er.error = none)

/-- A concrete content-hash function for witnesses (the claims hold for
every digest function, SHA-1 included). -/
def hash0 : Str → Str := fun _ => "h".toList

/-- A compiler environment with an empty cache in which every
file-system and toolchain interaction succeeds. -/
def cenvOk : CompilerEnv :=
  { cache := [], writeOk := true, toolchain := .finished true [],
    exeMeta := some 100, copyOk := true }

/-- A source text one byte over the 256 KiB ceiling. -/
def bigCode : Str := List.replicate (256 * 1024 + 1) 'a'

/-- A compiler environment whose cache already holds the entry for
`bigCode` compiled as C. -/
def cenvHit : CompilerEnv :=
  { cache := [cacheFile hash0 bigCode .c], writeOk := true,
    toolchain := .finished true [], exeMeta := some 100, copyOk := true }

/-- An execution environment in which the wall-clock limit fires. -/
def envTimedOut : ExecEnv :=
  { spawn := .ok 71, stdinWrite := .ok (), stdoutData := "partial".toList,
    stderrData := [], wait := .timedOut, elapsedMs := 1004, peakMem := 2048 }

/-- An execution environment in which spawning the child fails. -/
def envSpawnFail : ExecEnv :=
  { spawn := .error "No such file or directory".toList, stdinWrite := .ok (),
    stdoutData := [], stderrData := [], wait := .exited true,
    elapsedMs := 0, peakMem := 0 }

/-- An execution environment for a child that runs to a clean exit;
stands for a submission that writes far more than one pipe buffer to
stdout before consuming stdin. -/
def envCleanExit : ExecEnv :=
  { spawn := .ok 72, stdinWrite := .ok (), stdoutData := "out".toList,
    stderrData := [], wait := .exited true, elapsedMs := 9, peakMem := 512 }

/-- A 128 KiB stdin payload (about twice a typical pipe buffer). -/
def input128K : Str := List.replicate (128 * 1024) '1'

/-- An execution environment whose child exits cleanly printing 11. -/
def envPrints11 : ExecEnv :=
  { spawn := .ok 73, stdinWrite := .ok (), stdoutData := "11\n".toList,
    stderrData := [], wait := .exited true, elapsedMs := 5, peakMem := 640 }

/-- A problem with zero test cases. -/
def problemZero : Problem :=
  { id := "p0".toList, title := "t".toList, description := "d".toList,
    difficulty := .Easy, time_limit := 1000, memory_limit := 64,
    test_cases := [], tags := [] }

/-- A judge request for `problemZero` in C. -/
def requestZero : JudgeRequest :=
  { code := "int main(){return 0;}".toList, problem := problemZero,
    language := "c".toList, normalization := ⟨false, false⟩ }

/-- A problem with a single test case expecting 10. -/
def problemOne : Problem :=
  { id := "p1".toList, title := "t".toList, description := "d".toList,
    difficulty := .Easy, time_limit := 1000, memory_limit := 64,
    test_cases := [{ input := "5\n".toList, expected_output := "10\n".toList,
                     is_hidden := false }],
    tags := [] }

/-- A judge request for `problemOne` in C. -/
def requestOne : JudgeRequest :=
  { code := "int main(){return 0;}".toList, problem := problemOne,
    language := "c".toList, normalization := ⟨false, false⟩ }

/-- Placeholder submission record (default of Option.getD below). -/
def subDefault : SubmissionResult :=
  { problem_id := [], total_test_cases := 0, passed_test_cases := 0,
    test_case_results := [], compilation_successful := false,
    compilation_error := none, total_execution_time := 0,
    score := .ratio 0 1, compile_time_ms := none, executable_size_bytes := none }

/-- The submission produced by judging `requestOne` against a child
that prints 11 (wrong answer, clean exit). -/
def subWrongAnswer : SubmissionResult :=
  ((judgeRun hash0 cenvOk (fun _ => envPrints11) 3 (some 100) requestOne).result).getD
    subDefault

example : rustLines ("a\r\nb".toList) = ["a".toList, "b".toList] := by decide
example : rustLines ("a\n".toList) = ["a".toList] := by decide
example : rustLines ("a\r".toList) = ["a\r".toList] := by decide
example : rustLines ("".toList) = [] := by decide
example :
    normalize_output_with ⟨false, false⟩ ("  a \r\nb  ".toList) = "a\nb".toList := by
  decide
example :
    normalize_output_with ⟨true, true⟩ (" x \t y\r\n\r\nz ".toList) = "x y\n\nz".toList := by
  decide

theorem strUtf8Len_bigCode : strUtf8Len bigCode = 256 * 1024 + 1 := by
  unfold strUtf8Len bigCode
  rw [List.map_replicate, List.sum_replicate]
  have h1 : Char.utf8Size 'a' = 1 := rfl
  rw [h1, smul_eq_mul, mul_one]

theorem compileWith_key (t : Str) (hash : Str → Str) (lang : Lang)
    (env : CompilerEnv) (code : Str) :
    (compileWith t hash lang env code).key = cacheFile hash code lang := by
  by_cases hmem : cacheFile hash code lang ∈ env.cache
  · simp [compileWith, hmem]
  · by_cases hbig : strUtf8Len code > 256 * 1024
    · simp [compileWith, hmem, hbig]
    · by_cases hw : env.writeOk = false
      · simp [compileWith, hmem, hbig, hw]
      · cases htc : env.toolchain with
        | timedOut => simp [compileWith, hmem, hbig, hw, htc]
        | spawnFailed => simp [compileWith, hmem, hbig, hw, htc]
        | finished exitOk stderr =>
          by_cases hek : exitOk = false
          · simp [compileWith, hmem, hbig, hw, htc, hek]
          · cases hmeta : env.exeMeta with
            | none => simp [compileWith, hmem, hbig, hw, htc, hek, hmeta]
            | some sz =>
              by_cases hsz : sz > 64 * 1024 * 1024
              · simp [compileWith, hmem, hbig, hw, htc, hek, hmeta, hsz]
              · simp [compileWith, hmem, hbig, hw, htc, hek, hmeta, hsz]

theorem compileWith_ok_mem {t : Str} {hash : Str → Str} {lang : Lang}
    {env : CompilerEnv} {code : Str} {p : Str}
    (hok : (compileWith t hash lang env code).result = .ok p)
    (hcopy : env.copyOk = true) :
    cacheFile hash code lang ∈ (compileWith t hash lang env code).cacheAfter := by
  by_cases hmem : cacheFile hash code lang ∈ env.cache
  · simp [compileWith, hmem]
  · by_cases hbig : strUtf8Len code > 256 * 1024
    · simp [compileWith, hmem, hbig] at hok
    · by_cases hw : env.writeOk = false
      · simp [compileWith, hmem, hbig, hw] at hok
      · cases htc : env.toolchain with
        | timedOut => simp [compileWith, hmem, hbig, hw, htc] at hok
        | spawnFailed => simp [compileWith, hmem, hbig, hw, htc] at hok
        | finished exitOk stderr =>
          by_cases hek : exitOk = false
          · simp [compileWith, hmem, hbig, hw, htc, hek] at hok
          · cases hmeta : env.exeMeta with
            | none => simp [compileWith, hmem, hbig, hw, htc, hek, hmeta, hcopy]
            | some sz =>
              by_cases hsz : sz > 64 * 1024 * 1024
              · simp [compileWith, hmem, hbig, hw, htc, hek, hmeta, hsz] at hok
              · simp [compileWith, hmem, hbig, hw, htc, hek, hmeta, hsz, hcopy]

theorem compileLang_eq_compileWith (lang : Lang) (hash : Str → Str)
    (env : CompilerEnv) (code : Str) :
    compileLang lang hash env code =
      compileWith (if lang = .c then "gcc".toList else "g++".toList) hash lang env code := by
  cases lang <;> rfl

theorem compileWith_hit {t : Str} {hash : Str → Str} {lang : Lang}
    {env : CompilerEnv} {code : Str}
    (hmem : cacheFile hash code lang ∈ env.cache) :
    compileWith t hash lang env code =
      { result := .ok (cacheFile hash code lang), events := [],
        cacheAfter := env.cache, key := cacheFile hash code lang } := by
  simp [compileWith, hmem]

/-- C3 counterexample: an oversized source whose cache entry already
exists is NOT rejected — compile_c returns the cached path, because the
cache probe precedes the size check (compiler.rs lines 30-37). -/
theorem c3_oversized_cached_accepted :
    strUtf8Len bigCode > 256 * 1024 ∧
    (compile_c hash0 cenvHit bigCode).result = .ok (cacheFile hash0 bigCode .c) := by
  constructor
  · rw [strUtf8Len_bigCode]; omega
  · simp [compile_c, compileWith, cenvHit]

/-- C3 (amended): for every source exceeding the 256 KiB ceiling WHOSE
CACHE KEY IS NOT ALREADY PRESENT, compile_c / compile_cpp fails with
"Source too large" before any file write and before any toolchain
invocation (the recorded side-effect list is empty). -/
theorem c3_source_too_large_before_disk (hash : Str → Str) (env : CompilerEnv)
    (code : Str) (lang : Lang)
    (hmiss : cacheFile hash code lang ∉ env.cache)
    (hbig : strUtf8Len code > 256 * 1024) :
    (compileLang lang hash env code).result = .error ("Source too large".toList) ∧
    (compileLang lang hash env code).events = [] := by
  cases lang <;> simp [compileLang, compile_c, compile_cpp, compileWith, hmiss, hbig]

/-- C3 witness: the amended statement at a concrete oversized source
and an empty cache. -/
theorem c3_source_too_large_before_disk_witness :
    (compileLang .c hash0 cenvOk bigCode).result = .error ("Source too large".toList) ∧
    (compileLang .c hash0 cenvOk bigCode).events = [] :=
  c3_source_too_large_before_disk hash0 cenvOk bigCode .c
    (by simp [cenvOk]) (by rw [strUtf8Len_bigCode]; omega)

/-- C7: the cache key is a function of the source hash and the
language alone, so byte-identical source in the same language computes
the same key; and provided the best-effort cache copy of the first
compilation succeeded (env.copyOk — fs::copy, whose result compiler.rs
ignores), a second compilation of the same source hits the cache: it
returns the cached path with an empty side-effect list — no file write
and no toolchain invocation. -/
theorem c7_cache_hit_second_compile (hash : Str → Str) (env : CompilerEnv)
    (code : Str) (lang : Lang) (p : Str)
    (hok : (compileLang lang hash env code).result = .ok p)
    (hcopy : env.copyOk = true) :
    (compileLang lang hash env code).key = cacheFile hash code lang ∧
    (compileLang lang hash
        { env with cache := (compileLang lang hash env code).cacheAfter } code).key =
      cacheFile hash code lang ∧
    (compileLang lang hash
        { env with cache := (compileLang lang hash env code).cacheAfter } code).result =
      .ok (cacheFile hash code lang) ∧
    (compileLang lang hash
        { env with cache := (compileLang lang hash env code).cacheAfter } code).events =
      [] := by
  cases lang with
  | c =>
    simp only [compileLang, compile_c] at hok ⊢
    have hmem := compileWith_ok_mem hok hcopy
    have hhit :
        compileWith ("gcc".toList) hash .c
          { env with cache := (compileWith ("gcc".toList) hash .c env code).cacheAfter }
          code =
        { result := .ok (cacheFile hash code .c), events := [],
          cacheAfter := (compileWith ("gcc".toList) hash .c env code).cacheAfter,
          key := cacheFile hash code .c } :=
      compileWith_hit (by simpa using hmem)
    rw [hhit]
    exact ⟨compileWith_key _ _ _ _ _, rfl, rfl, rfl⟩
  | cpp =>
    simp only [compileLang, compile_cpp] at hok ⊢
    have hmem := compileWith_ok_mem hok hcopy
    have hhit :
        compileWith ("g++".toList) hash .cpp
          { env with cache := (compileWith ("g++".toList) hash .cpp env code).cacheAfter }
          code =
        { result := .ok (cacheFile hash code .cpp), events := [],
          cacheAfter := (compileWith ("g++".toList) hash .cpp env code).cacheAfter,
          key := cacheFile hash code .cpp } :=
      compileWith_hit (by simpa using hmem)
    rw [hhit]
    exact ⟨compileWith_key _ _ _ _ _, rfl, rfl, rfl⟩

/-- C7 witness: a fresh successful compile of a small C source followed
by a second compile of the same source. -/
theorem c7_cache_hit_second_compile_witness :
    (compileLang .c hash0 cenvOk ("int main(){return 0;}".toList)).key =
      cacheFile hash0 ("int main(){return 0;}".toList) .c ∧
    (compileLang .c hash0
        { cenvOk with
            cache := (compileLang .c hash0 cenvOk ("int main(){return 0;}".toList)).cacheAfter }
        ("int main(){return 0;}".toList)).key =
      cacheFile hash0 ("int main(){return 0;}".toList) .c ∧
    (compileLang .c hash0
        { cenvOk with
            cache := (compileLang .c hash0 cenvOk ("int main(){return 0;}".toList)).cacheAfter }
        ("int main(){return 0;}".toList)).result =
      .ok (cacheFile hash0 ("int main(){return 0;}".toList) .c) ∧
    (compileLang .c hash0
        { cenvOk with
            cache := (compileLang .c hash0 cenvOk ("int main(){return 0;}".toList)).cacheAfter }
        ("int main(){return 0;}".toList)).events = [] :=
  c7_cache_hit_second_compile hash0 cenvOk ("int main(){return 0;}".toList) .c
    (cacheFile hash0 ("int main(){return 0;}".toList) .c) (by decide) (by decide)

/-- C4 counterexample: on a spawn failure Executor::execute DOES return
an engine error (the ? operator on spawn propagates an Err), rather
than an ExecutionResult — the degradation to a result happens one level
up, in Judge::judge's unwrap_or_else. -/
theorem c4_spawn_failure_is_engine_error :
    (execute envSpawnFail []).fst =
      Except.error ("Failed to start process".toList) := by decide

/-- C4 (amended): Executor::execute propagates a spawn failure as an
engine error ("Failed to start process"); it is the judge's
unwrap_or_else wrapper around it that converts the failure into an
ExecutionResult with success = false, a descriptive message, empty
output, and zero execution time and memory — so at the judging level
the failure degrades to missing data rather than aborting the run. -/
theorem c4_spawn_failure_degrades_at_judge (env : ExecEnv) (input : Str)
    (msg : Str) (hspawn : env.spawn = .error msg) :
    (execute env input).fst = Except.error ("Failed to start process".toList) ∧
    execOrFallback env input =
      { success := false, output := [],
        error := some ("Execution error: Failed to start process".toList),
        execution_time := 0, memory_usage := 0 } := by
  constructor
  · simp [execute, hspawn]
  · simp [execOrFallback, execute, hspawn]

/-- C4 witness: the amended statement at a concrete failing spawn. -/
theorem c4_spawn_failure_degrades_at_judge_witness :
    (execute envSpawnFail []).fst = Except.error ("Failed to start process".toList) ∧
    execOrFallback envSpawnFail [] =
      { success := false, output := [],
        error := some ("Execution error: Failed to start process".toList),
        execution_time := 0, memory_usage := 0 } :=
  c4_spawn_failure_degrades_at_judge envSpawnFail []
    ("No such file or directory".toList) rfl

/-- C5: when the wall-clock limit fires before the child exits, the
returned result has success = false, empty output, error exactly "Time
limit exceeded", the elapsed time read when the timeout fired (the
source reads start_time.elapsed() right after the race, so it is the
limit plus scheduling overhead), and the peak memory sampled before
termination; and the recorded event order shows the child killed and
reaped, the drain tasks joined, and only then the function returning. -/
theorem c5_timeout_kills_reaps_and_reports (env : ExecEnv) (input : Str)
    (pid : Nat) (hspawn : env.spawn = .ok pid) (hwrite : env.stdinWrite = .ok ())
    (hwait : env.wait = .timedOut) :
    (execute env input).fst =
      .ok { success := false, output := [], error := some tleMsg,
            execution_time := env.elapsedMs, memory_usage := env.peakMem } ∧
    (execute env input).snd =
      [.spawned, .stdinWritten, .samplerSpawned, .stdoutDrainSpawned,
       .stderrDrainSpawned, .killed, .reaped, .stdoutJoined, .stderrJoined,
       .samplerStopped, .returned] := by
  constructor <;> simp [execute, hspawn, hwrite, hwait]

/-- C5 witness: a concrete timed-out execution. -/
theorem c5_timeout_kills_reaps_and_reports_witness :
    (execute envTimedOut []).fst =
      .ok { success := false, output := [], error := some tleMsg,
            execution_time := envTimedOut.elapsedMs,
            memory_usage := envTimedOut.peakMem } ∧
    (execute envTimedOut []).snd =
      [.spawned, .stdinWritten, .samplerSpawned, .stdoutDrainSpawned,
       .stderrDrainSpawned, .killed, .reaped, .stdoutJoined, .stderrJoined,
       .samplerStopped, .returned] :=
  c5_timeout_kills_reaps_and_reports envTimedOut [] 71 rfl rfl rfl

/-- C8: the claim is false of the code — executor.rs awaits the FULL
stdin write (stdin.write_all(...).await, line 40) strictly before the
stdout/stderr drain tasks are even spawned (lines 75-88): the write is
serialized before the drains, as the completed-event order of the
embedding records.  With a 128 KiB input and a child that fills its
stdout pipe before consuming stdin, the serialized write blocks with no
drain task running — precisely the deadlock the specification says the
concurrency fabric must prevent. -/
theorem c8_stdin_write_serialized_before_drains :
    ((execute envCleanExit input128K).snd).indexOf EEvent.stdinWritten <
      ((execute envCleanExit input128K).snd).indexOf EEvent.stdoutDrainSpawned ∧
    ((execute envCleanExit input128K).snd).indexOf EEvent.stdinWritten <
      ((execute envCleanExit input128K).snd).indexOf EEvent.stderrDrainSpawned := by
  constructor <;> decide

theorem any_congr_mem {α : Type} {f g : α → Bool} {l : List α}
    (h : ∀ a ∈ l, f a = g a) : l.any f = l.any g := by
  induction l with
  | nil => rfl
  | cons a t ih => simp_all [List.any_cons]

theorem execOrFallback_wf (env : ExecEnv) (input : Str) :
    wfError (execOrFallback env input) := by
  unfold wfError
  cases hs : env.spawn with
  | error e =>
    simp only [execOrFallback, execute, hs]
    exact ⟨fun m hm => by injection hm with h; subst h; decide, fun h => nomatch h⟩
  | ok pid =>
    cases hw : env.stdinWrite with
    | error e =>
      simp only [execOrFallback, execute, hs, hw]
      exact ⟨fun m hm => by injection hm with h; subst h; decide, fun h => nomatch h⟩
    | ok u =>
      cases hwait : env.wait with
      | exited exitOk =>
        simp only [execOrFallback, execute, hs, hw, hwait]
        constructor
        · intro m hm
          by_cases hc : exitOk = false ∧ env.stderrData ≠ []
          · rw [if_pos hc] at hm
            injection hm with h
            subst h
            exact hc.2
          · rw [if_neg hc] at hm
            exact absurd hm (by simp)
        · intro h
          have hc : ¬ (exitOk = false ∧ env.stderrData ≠ []) := by
            intro hcon
            rw [h] at hcon
            exact absurd hcon.1 (by simp)
          exact if_neg hc
      | failed msg =>
        simp only [execOrFallback, execute, hs, hw, hwait]
        refine ⟨fun m hm => ?_, fun h => nomatch h⟩
        injection hm with h
        subst h
        intro hnil
        have h1 : ("Process error: ".toList : Str) ≠ [] := by decide
        exact h1 (List.append_eq_nil.mp hnil).1
      | timedOut =>
        simp only [execOrFallback, execute, hs, hw, hwait]
        exact ⟨fun m hm => by injection hm with h; subst h; decide, fun h => nomatch h⟩

theorem testResults_wf (opts : NormalizationOptions) (execEnvs : Nat → ExecEnv)
    (tcs : List TestCase) :
    ∀ r ∈ testResults opts execEnvs tcs, wfError r.execution_result := by
  intro r hr
  simp only [testResults, List.mem_map] at hr
  obtain ⟨p, -, rfl⟩ := hr
  exact execOrFallback_wf (execEnvs p.1) p.2.input

theorem overallStatus_eq_spec (rs : List TestCaseResult)
    (hwf : ∀ r ∈ rs, wfError r.execution_result) :
    overallStatusOf rs = specStatusOf rs := by
  unfold overallStatusOf specStatusOf
  have hall : ((rs.filter (·.passed)).length = rs.length) ↔ (rs.all (·.passed) = true) := by
    rw [← List.countP_eq_length_filter, List.countP_eq_length, List.all_eq_true]
  have hre :
      (rs.any fun r =>
        r.execution_result.success == false && r.execution_result.error.isSome) =
      (rs.any fun r =>
        r.execution_result.success == false &&
          (match r.execution_result.error with
           | some m => !(m.isEmpty)
           | none => false)) := by
    refine any_congr_mem ?_
    intro r hr
    obtain ⟨h1, -⟩ := hwf r hr
    cases he : r.execution_result.error with
    | none => simp [he]
    | some m =>
      have hm := h1 m he
      simp [he, List.isEmpty_iff, hm]
  by_cases hA : (rs.filter (·.passed)).length = rs.length
  · rw [if_pos hA, if_pos (hall.mp hA)]
  · rw [if_neg hA, if_neg (fun hB => hA (hall.mpr hB)), hre]

theorem judge_ok_inv {hash : Str → Str} {cenv : CompilerEnv}
    {execEnvs : Nat → ExecEnv} {ct : Nat} {es : Option Nat}
    {req : JudgeRequest} {sub : SubmissionResult}
    (hsub : (judgeRun hash cenv execEnvs ct es req).result = some sub) :
    sub = judgeSubmission execEnvs ct es req ∧
    (judgeRun hash cenv execEnvs ct es req).status =
      overallStatusOf (testResults req.normalization execEnvs req.problem.test_cases) := by
  simp only [judgeRun] at hsub ⊢
  split at hsub
  · exact absurd hsub (by simp)
  · rename_i out heq
    split at hsub
    · exact absurd hsub (by simp)
    · rename_i pth heq2
      simp only [Option.some.injEq] at hsub
      exact ⟨hsub.symm, rfl⟩

/-- C2: the code violates the claim — a judge request with zero test
cases is NOT rejected: Judge::judge reaches scoring, divides
passed_count by a zero total (judge.rs line 91, 0.0/0.0 in f64), and
returns a successful response with score NaN and status Ok. -/
theorem c2_zero_test_cases_reaches_division :
    (judgeRun hash0 cenvOk (fun _ => envPrints11) 3 (some 100) requestZero).success = true ∧
    (judgeRun hash0 cenvOk (fun _ => envPrints11) 3 (some 100) requestZero).status =
      OverallStatus.Ok ∧
    ((judgeRun hash0 cenvOk (fun _ => envPrints11) 3 (some 100) requestZero).result.map
        (·.score)) = some F64.nan ∧
    scoreF64 0 0 = F64.nan := by decide

/-- C1: for every judge request whose compilation succeeds, the
response status follows exactly the priority stated by the spec
(`specStatusOf`): all passed gives Ok, else any exact "Time limit
exceeded" error gives Timeout, else any failed execution with a
non-empty error gives RuntimeError, else Ok; and in particular a
submission whose every execution exits successfully but fails some
comparison (wrong answer) still gets status Ok. -/
theorem c1_overall_status_priority {hash : Str → Str} {cenv : CompilerEnv}
    {execEnvs : Nat → ExecEnv} {ct : Nat} {es : Option Nat}
    {req : JudgeRequest} {sub : SubmissionResult}
    (hsub : (judgeRun hash cenv execEnvs ct es req).result = some sub) :
    (judgeRun hash cenv execEnvs ct es req).status = specStatusOf sub.test_case_results ∧
    ((∀ r ∈ sub.test_case_results, r.execution_result.success = true) →
      (∃ r ∈ sub.test_case_results, r.passed = false) →
      (judgeRun hash cenv execEnvs ct es req).status = OverallStatus.Ok) := by
  obtain ⟨rfl, hstat⟩ := judge_ok_inv hsub
  have hfield :
      (judgeSubmission execEnvs ct es req).test_case_results =
        testResults req.normalization execEnvs req.problem.test_cases := rfl
  have hwf := testResults_wf req.normalization execEnvs req.problem.test_cases
  constructor
  · rw [hstat, hfield]
    exact overallStatus_eq_spec _ hwf
  · intro hallsucc hexfail
    rw [hfield] at hallsucc
    rw [hstat]
    unfold overallStatusOf
    by_cases hA :
        ((testResults req.normalization execEnvs req.problem.test_cases).filter
            (·.passed)).length =
          (testResults req.normalization execEnvs req.problem.test_cases).length
    · rw [if_pos hA]
    · rw [if_neg hA]
      have herrnone : ∀ r ∈ testResults req.normalization execEnvs req.problem.test_cases,
          r.execution_result.error = none := fun r hr => (hwf r hr).2 (hallsucc r hr)
      have htle :
          ¬ ((testResults req.normalization execEnvs req.problem.test_cases).any
              (fun r => r.execution_result.error == some tleMsg)) = true := by
        intro hcon
        obtain ⟨r, hr, hp⟩ := List.any_eq_true.mp hcon
        simp [herrnone r hr] at hp
      have hrte :
          ¬ ((testResults req.normalization execEnvs req.problem.test_cases).any
              (fun r =>
                r.execution_result.success == false &&
                  r.execution_result.error.isSome)) = true := by
        intro hcon
        obtain ⟨r, hr, hp⟩ := List.any_eq_true.mp hcon
        simp [herrnone r hr] at hp
      rw [if_neg htle, if_neg hrte]

/-- C1 witness: a concrete clean-exit wrong-answer run (child prints 11
where 10 is expected): compilation succeeds, the test fails, and the
response status is Ok. -/
theorem c1_overall_status_priority_witness :
    (judgeRun hash0 cenvOk (fun _ => envPrints11) 3 (some 100) requestOne).status =
      specStatusOf subWrongAnswer.test_case_results ∧
    ((∀ r ∈ subWrongAnswer.test_case_results, r.execution_result.success = true) →
      (∃ r ∈ subWrongAnswer.test_case_results, r.passed = false) →
      (judgeRun hash0 cenvOk (fun _ => envPrints11) 3 (some 100) requestOne).status =
        OverallStatus.Ok) :=
  c1_overall_status_priority (by decide)

/-- C9: whenever compilation succeeds, every test case is attempted —
the result list has exactly one entry per test case regardless of any
per-test outcome (the statement quantifies over every family of
execution environments, timeouts and failures included), in input
order, and each entry's test_case_id is its positional index. -/
theorem c9_one_result_per_test_in_order {hash : Str → Str} {cenv : CompilerEnv}
    {execEnvs : Nat → ExecEnv} {ct : Nat} {es : Option Nat}
    {req : JudgeRequest} {sub : SubmissionResult}
    (hsub : (judgeRun hash cenv execEnvs ct es req).result = some sub) :
    sub.test_case_results.length = req.problem.test_cases.length ∧
    sub.total_test_cases = req.problem.test_cases.length ∧
    ∀ i (h : i < sub.test_case_results.length),
      (sub.test_case_results.get ⟨i, h⟩).test_case_id = i := by
  obtain ⟨rfl, -⟩ := judge_ok_inv hsub
  refine ⟨?_, ?_, ?_⟩
  · simp [judgeSubmission, testResults, List.enum_length]
  · simp [judgeSubmission, testResults, List.enum_length]
  · intro i h
    simp [judgeSubmission, testResults, runTestCase, List.get_eq_getElem,
      List.getElem_map, List.getElem_enum]

/-- C9 witness: the wrong-answer run of requestOne has exactly one
result, whose test_case_id is 0. -/
theorem c9_one_result_per_test_in_order_witness :
    subWrongAnswer.test_case_results.length = requestOne.problem.test_cases.length ∧
    (subWrongAnswer.test_case_results.get
        ⟨0, by decide⟩).test_case_id = 0 := by
  have h := @c9_one_result_per_test_in_order hash0 cenvOk (fun _ => envPrints11)
    3 (some 100) requestOne subWrongAnswer (by decide)
  exact ⟨h.1, h.2.2 0 (by decide)⟩

theorem cr_ne_nl : ¬ ('\r' : Char) = '\n' := by decide

theorem splitNl_ne_nil (s : Str) : splitNl s ≠ [] := by
  induction s with
  | nil => simp [splitNl]
  | cons c rest ih =>
    simp only [splitNl]
    split
    · simp
    · split
      · simp
      · simp

theorem splitNl_cons_nl (rest : Str) : splitNl ('\n' :: rest) = [] :: splitNl rest := by
  simp [splitNl]

theorem splitNl_cons_of {c : Char} {rest : Str} {m : Str} {ms : List Str}
    (hc : ¬ c = '\n') (h : splitNl rest = m :: ms) :
    splitNl (c :: rest) = (c :: m) :: ms := by
  simp only [splitNl, if_neg hc, h]

theorem splitNl_of_not_mem {a : Str} (h : '\n' ∉ a) : splitNl a = [a] := by
  induction a with
  | nil => rfl
  | cons c t ih =>
    have hc : ¬ c = '\n' := fun hh => h (by simp [hh])
    have ht : '\n' ∉ t := fun hh => h (List.mem_cons_of_mem c hh)
    exact splitNl_cons_of hc (ih ht)

theorem splitNl_append_nl {a : Str} (t : Str) (h : '\n' ∉ a) :
    splitNl (a ++ '\n' :: t) = a :: splitNl t := by
  induction a with
  | nil => simp [splitNl]
  | cons c u ih =>
    have hc : ¬ c = '\n' := fun hh => h (by simp [hh])
    have hu : '\n' ∉ u := fun hh => h (List.mem_cons_of_mem c hh)
    rw [List.cons_append]
    exact splitNl_cons_of hc (ih hu)

theorem splitNl_joinNl {ls : List Str} (hne : ls ≠ [])
    (h : ∀ l ∈ ls, '\n' ∉ l) : splitNl (joinNl ls) = ls := by
  induction ls with
  | nil => exact absurd rfl hne
  | cons l ls ih =>
    cases ls with
    | nil => exact splitNl_of_not_mem (h l (List.mem_cons_self l []))
    | cons l2 ls2 =>
      have hj : joinNl (l :: l2 :: ls2) = l ++ '\n' :: joinNl (l2 :: ls2) := rfl
      rw [hj, splitNl_append_nl _ (h l (List.mem_cons_self l _)),
        ih (by simp) (fun x hx => h x (List.mem_cons_of_mem l hx))]

theorem not_nl_mem_splitNl {s : Str} : ∀ l ∈ splitNl s, '\n' ∉ l := by
  induction s with
  | nil =>
    intro l hl
    simp only [splitNl, List.mem_singleton] at hl
    subst hl
    simp
  | cons c rest ih =>
    intro l hl
    by_cases hc : c = '\n'
    · subst hc
      rw [splitNl_cons_nl] at hl
      rcases List.mem_cons.mp hl with h1 | h1
      · subst h1; simp
      · exact ih l h1
    · cases hsp : splitNl rest with
      | nil => exact absurd hsp (splitNl_ne_nil rest)
      | cons m ms =>
        rw [splitNl_cons_of hc hsp] at hl
        rcases List.mem_cons.mp hl with h1 | h1
        · subst h1
          intro hnl
          rcases List.mem_cons.mp hnl with h2 | h2
          · exact hc h2.symm
          · exact ih m (by rw [hsp]; exact List.mem_cons_self _ _) h2
        · exact ih l (by rw [hsp]; exact List.mem_cons_of_mem _ h1)

theorem stripCR1_nil : stripCR1 [] = [] := rfl

theorem stripCR1_cons {c : Char} {m : Str} (hm : m ≠ []) :
    stripCR1 (c :: m) = c :: stripCR1 m := by
  cases m with
  | nil => exact absurd rfl hm
  | cons b l =>
    simp only [stripCR1, List.getLast?_cons_cons]
    by_cases h : (b :: l).getLast? = some '\r'
    · rw [if_pos h, if_pos h, List.dropLast_cons₂]
    · rw [if_neg h, if_neg h]

theorem splitNl_head_nil_cons {rest : Str} {m2 : Str} {ms : List Str}
    (h : splitNl rest = [] :: m2 :: ms) : ∃ r2, rest = '\n' :: r2 := by
  cases rest with
  | nil => simp [splitNl] at h
  | cons d r2 =>
    by_cases hd : d = '\n'
    · exact ⟨r2, by rw [hd]⟩
    · cases hsp : splitNl r2 with
      | nil => exact absurd hsp (splitNl_ne_nil r2)
      | cons m mss =>
        rw [splitNl_cons_of hd hsp] at h
        simp at h

theorem mapButLast_cons_cons (f : Str → Str) (a b : Str) (r : List Str) :
    mapButLast f (a :: b :: r) = f a :: mapButLast f (b :: r) := rfl

theorem splitNl_replaceCRLF (s : Str) :
    splitNl (replaceCRLF s) = mapButLast stripCR1 (splitNl s) := by
  induction s using replaceCRLF.induct with
  | case1 => rfl
  | case2 rest ih =>
    have hrw : replaceCRLF ('\r' :: '\n' :: rest) = '\n' :: replaceCRLF rest := rfl
    rw [hrw, splitNl_cons_nl, ih]
    cases hsp : splitNl rest with
    | nil => exact absurd hsp (splitNl_ne_nil rest)
    | cons m ms =>
      have hR : splitNl ('\r' :: '\n' :: rest) = ['\r'] :: m :: ms := by
        rw [splitNl_cons_of cr_ne_nl (by rw [splitNl_cons_nl, hsp])]
      rw [hR, mapButLast_cons_cons]
      have hcr : stripCR1 ['\r'] = [] := by decide
      rw [hcr]
  | case3 c rest hg ih =>
    have hrw : replaceCRLF (c :: rest) = c :: replaceCRLF rest :=
      replaceCRLF.eq_3 c rest hg
    rw [hrw]
    by_cases hc : c = '\n'
    · subst hc
      rw [splitNl_cons_nl, splitNl_cons_nl, ih]
      cases hsp : splitNl rest with
      | nil => exact absurd hsp (splitNl_ne_nil rest)
      | cons m ms =>
        rw [mapButLast_cons_cons, stripCR1_nil]
    · cases hsp : splitNl rest with
      | nil => exact absurd hsp (splitNl_ne_nil rest)
      | cons m ms =>
        cases ms with
        | nil =>
          rw [splitNl_cons_of hc hsp,
            splitNl_cons_of hc (by rw [ih, hsp]; rfl)]
          rfl
        | cons m2 ms2 =>
          have hmbl : mapButLast stripCR1 (splitNl rest) = stripCR1 m :: mapButLast stripCR1 (m2 :: ms2) := by
            rw [hsp, mapButLast_cons_cons]
          rw [splitNl_cons_of hc hsp,
            splitNl_cons_of hc (by rw [ih, hmbl]),
            mapButLast_cons_cons]
          by_cases hmnil : m = []
          · subst hmnil
            obtain ⟨r2, hr2⟩ := splitNl_head_nil_cons hsp
            have hcr : ¬ c = '\r' := by
              intro hcc
              exact hg r2 hcc hr2
            have h1 : stripCR1 [c] = [c] := by
              simp only [stripCR1]
              rw [if_neg (by simp [hcr])]
            rw [h1, stripCR1_nil]
          · rw [stripCR1_cons hmnil]

theorem formLines_eq (xs : List Str) :
    formLines xs = (xs.dropLast.map stripCR1) ++ lastPart xs.getLast? := by
  induction xs with
  | nil => rfl
  | cons a r ih =>
    cases r with
    | nil => rfl
    | cons b r2 =>
      have h1 : formLines (a :: b :: r2) = stripCR1 a :: formLines (b :: r2) := rfl
      rw [h1, ih, List.dropLast_cons₂, List.getLast?_cons_cons, List.map_cons,
        List.cons_append]

theorem mapButLast_shape (f : Str → Str) (b : Str) (r : List Str) :
    ∃ y ys, mapButLast f (b :: r) = y :: ys := by
  cases r with
  | nil => exact ⟨b, [], rfl⟩
  | cons c r2 => exact ⟨f b, mapButLast f (c :: r2), rfl⟩

theorem mapButLast_dropLast (f : Str → Str) :
    ∀ xs : List Str, (mapButLast f xs).dropLast = xs.dropLast.map f
  | [] => rfl
  | [_] => rfl
  | a :: b :: r => by
    obtain ⟨y, ys, hy⟩ := mapButLast_shape f b r
    rw [mapButLast_cons_cons, List.dropLast_cons_of_ne_nil (by rw [hy]; simp),
      mapButLast_dropLast f (b :: r), List.dropLast_cons₂, List.map_cons]

theorem mapButLast_getLast? (f : Str → Str) :
    ∀ xs : List Str, (mapButLast f xs).getLast? = xs.getLast?
  | [] => rfl
  | [_] => rfl
  | a :: b :: r => by
    rw [mapButLast_cons_cons]
    obtain ⟨y, ys, hy⟩ := mapButLast_shape f b r
    rw [hy, List.getLast?_cons_cons, ← hy, mapButLast_getLast? f (b :: r),
      List.getLast?_cons_cons]

theorem map_formLines_mapButLast {g : Str → Str}
    (hg : ∀ l, g (stripCR1 l) = g l) (xs : List Str) :
    (formLines (mapButLast stripCR1 xs)).map g = (formLines xs).map g := by
  rw [formLines_eq, formLines_eq, mapButLast_dropLast, mapButLast_getLast?,
    List.map_append, List.map_append, List.map_map, List.map_map, List.map_map]
  congr 1
  apply List.map_congr_left
  intro a _
  simp only [Function.comp]
  rw [hg, hg]

/-- Mapping any stripCR1-invariant function over the lines of the
CRLF-collapsed string gives the same list as over the lines of the
original: replace("\r\n","\n") only removes carriage returns that Rust
lines() would strip anyway (plus, at most, a second trailing CR per
newline-terminated line, which such a function also ignores). -/
theorem map_rustLines_replaceCRLF {g : Str → Str}
    (hg : ∀ l, g (stripCR1 l) = g l) (s : Str) :
    (rustLines (replaceCRLF s)).map g = (rustLines s).map g := by
  unfold rustLines
  rw [splitNl_replaceCRLF]
  exact map_formLines_mapButLast hg (splitNl s)

theorem ws_cr : isRustWS '\r' = true := by decide

theorem ws_nl : isRustWS '\n' = true := by decide

theorem trimRight_append_ws {l : Str} {c : Char} (hc : isRustWS c = true) :
    trimRight (l ++ [c]) = trimRight l := by
  unfold trimRight
  rw [List.reverse_append]
  simp [List.dropWhile_cons, hc]

theorem rustTrim_stripCR1 (l : Str) : rustTrim (stripCR1 l) = rustTrim l := by
  unfold stripCR1
  by_cases h : l.getLast? = some '\r'
  · rw [if_pos h]
    unfold rustTrim
    have hl : l.dropLast ++ ['\r'] = l :=
      List.dropLast_append_getLast? '\r' (Option.mem_def.mpr h)
    congr 1
    calc trimRight l.dropLast
        = trimRight (l.dropLast ++ ['\r']) := (trimRight_append_ws ws_cr).symm
      _ = trimRight l := by rw [hl]
  · rw [if_neg h]

theorem trimLeft_head? (l : Str) :
    ∀ c, (trimLeft l).head? = some c → isRustWS c = false := by
  intro c hc
  have hd := List.head?_dropWhile_not isRustWS l
  rw [show trimLeft l = List.dropWhile isRustWS l from rfl] at hc
  rw [hc] at hd
  exact hd

theorem trimLeft_eq_self {l : Str}
    (h : ∀ c, l.head? = some c → isRustWS c = false) : trimLeft l = l := by
  cases l with
  | nil => rfl
  | cons a t =>
    unfold trimLeft
    rw [List.dropWhile_cons, if_neg (by simp [h a rfl])]

theorem trimRight_getLast? (l : Str) :
    ∀ c, (trimRight l).getLast? = some c → isRustWS c = false := by
  intro c hc
  unfold trimRight at hc
  rw [List.getLast?_reverse] at hc
  exact trimLeft_head? _ c hc

theorem trimRight_eq_self {l : Str}
    (h : ∀ c, l.getLast? = some c → isRustWS c = false) : trimRight l = l := by
  unfold trimRight
  rw [show List.dropWhile isRustWS l.reverse = trimLeft l.reverse from rfl,
    trimLeft_eq_self (fun c hc => h c (by rwa [List.head?_reverse] at hc)),
    List.reverse_reverse]

theorem rustTrim_head? (l : Str) :
    ∀ c, (rustTrim l).head? = some c → isRustWS c = false :=
  fun c h => trimLeft_head? (trimRight l) c h

theorem rustTrim_getLast? (l : Str) :
    ∀ c, (rustTrim l).getLast? = some c → isRustWS c = false := by
  intro c hc
  have hsuff : rustTrim l <:+ trimRight l := List.dropWhile_suffix _
  obtain ⟨t, ht⟩ := hsuff
  have h2 : (trimRight l).getLast? = some c := by
    rw [← ht, List.getLast?_append, hc]
    rfl
  exact trimRight_getLast? l c h2

theorem rustTrim_idem (l : Str) : rustTrim (rustTrim l) = rustTrim l := by
  have h1 : trimRight (rustTrim l) = rustTrim l :=
    trimRight_eq_self (rustTrim_getLast? l)
  show trimLeft (trimRight (rustTrim l)) = rustTrim l
  rw [h1]
  exact trimLeft_eq_self (rustTrim_head? l)

theorem mem_rustTrim {a : Char} {l : Str} (h : a ∈ rustTrim l) : a ∈ l := by
  have h1 : a ∈ trimRight l :=
    List.IsSuffix.mem h (List.dropWhile_suffix _)
  unfold trimRight at h1
  rw [List.mem_reverse] at h1
  have h2 : a ∈ l.reverse := List.IsSuffix.mem h1 (List.dropWhile_suffix _)
  rwa [List.mem_reverse] at h2

theorem stripCR1_of_last_not_ws {l : Str}
    (h : ∀ c, l.getLast? = some c → isRustWS c = false) : stripCR1 l = l := by
  unfold stripCR1
  rw [if_neg]
  intro hh
  have h2 := h '\r' hh
  rw [ws_cr] at h2
  exact absurd h2 (by decide)

theorem joinNl_cons_cons (l l2 : Str) (ls : List Str) :
    joinNl (l :: l2 :: ls) = l ++ '\n' :: joinNl (l2 :: ls) := rfl

theorem joinNl_append_single : ∀ {xs : List Str}, ∀ (y : Str), xs ≠ [] →
    joinNl (xs ++ [y]) = joinNl xs ++ '\n' :: y
  | [], y, hne => absurd rfl hne
  | [x], y, _ => rfl
  | x :: x2 :: r2, y, _ => by
    rw [show (x :: x2 :: r2) ++ [y] = x :: x2 :: (r2 ++ [y]) by simp,
      joinNl_cons_cons,
      show x2 :: (r2 ++ [y]) = (x2 :: r2) ++ [y] by simp,
      joinNl_append_single y (by simp), joinNl_cons_cons]
    simp [List.append_assoc]

theorem reverse_joinNl :
    ∀ ls : List Str, (joinNl ls).reverse = joinNl (ls.reverse.map List.reverse)
  | [] => rfl
  | [l] => by simp [joinNl]
  | l :: l2 :: ls => by
    rw [joinNl_cons_cons, List.reverse_append,
      show ('\n' :: joinNl (l2 :: ls)).reverse =
        (joinNl (l2 :: ls)).reverse ++ ['\n'] from List.reverse_cons _ _,
      reverse_joinNl (l2 :: ls),
      show (l :: l2 :: ls).reverse = (l2 :: ls).reverse ++ [l] from
        List.reverse_cons _ _,
      List.map_append,
      show List.map List.reverse [l] = [l.reverse] from rfl,
      joinNl_append_single _ (by simp)]
    simp [List.append_assoc]

theorem mem_dropBlanksL {x : Str} {ls : List Str} (h : x ∈ dropBlanksL ls) :
    x ∈ ls :=
  List.IsSuffix.mem h (List.dropWhile_suffix _)

theorem mem_dropBlanksR {x : Str} {ls : List Str} (h : x ∈ dropBlanksR ls) :
    x ∈ ls := by
  unfold dropBlanksR at h
  rw [List.mem_reverse] at h
  have h2 := List.IsSuffix.mem h (List.dropWhile_suffix _)
  rwa [List.mem_reverse] at h2

theorem trimLeft_joinNl : ∀ {ls : List Str},
    (∀ l ∈ ls, ∀ c, l.head? = some c → isRustWS c = false) →
    trimLeft (joinNl ls) = joinNl (dropBlanksL ls)
  | [], _ => rfl
  | [l], h => by
    cases l with
    | nil => rfl
    | cons a t =>
      have ha : isRustWS a = false := h (a :: t) (by simp) a rfl
      show trimLeft (a :: t) = joinNl (dropBlanksL [a :: t])
      unfold trimLeft dropBlanksL
      rw [List.dropWhile_cons, if_neg (by simp [ha]), List.dropWhile_cons,
        if_neg (by simp)]
      rfl
  | l :: l2 :: ls, h => by
    cases l with
    | nil =>
      rw [joinNl_cons_cons, List.nil_append,
        show trimLeft ('\n' :: joinNl (l2 :: ls)) = trimLeft (joinNl (l2 :: ls)) from by
          unfold trimLeft
          rw [List.dropWhile_cons, if_pos (by rw [ws_nl])],
        trimLeft_joinNl (fun x hx => h x (List.mem_cons_of_mem _ hx)),
        show dropBlanksL ([] :: l2 :: ls) = dropBlanksL (l2 :: ls) from by
          unfold dropBlanksL
          rw [List.dropWhile_cons, if_pos (by simp)]]
    | cons a t =>
      have ha : isRustWS a = false := h (a :: t) (by simp) a rfl
      rw [joinNl_cons_cons,
        show (a :: t) ++ '\n' :: joinNl (l2 :: ls) =
          a :: (t ++ '\n' :: joinNl (l2 :: ls)) from rfl,
        show trimLeft (a :: (t ++ '\n' :: joinNl (l2 :: ls))) =
          a :: (t ++ '\n' :: joinNl (l2 :: ls)) from by
          unfold trimLeft
          rw [List.dropWhile_cons, if_neg (by simp [ha])],
        show dropBlanksL ((a :: t) :: l2 :: ls) = (a :: t) :: l2 :: ls from by
          unfold dropBlanksL
          rw [List.dropWhile_cons, if_neg (by simp)],
        joinNl_cons_cons]
      rfl

theorem dropWhile_isEmpty_map_reverse : ∀ xs : List Str,
    List.dropWhile List.isEmpty (xs.map List.reverse) =
      (List.dropWhile List.isEmpty xs).map List.reverse
  | [] => rfl
  | x :: r => by
    rw [List.map_cons, List.dropWhile_cons, List.dropWhile_cons]
    by_cases hx : x.isEmpty = true
    · have hxe : x = [] := List.isEmpty_iff.mp hx
      subst hxe
      rw [if_pos (by simp), if_pos (by simp)]
      exact dropWhile_isEmpty_map_reverse r
    · have hrev : ¬ (x.reverse.isEmpty = true) := by
        simp only [List.isEmpty_iff] at hx ⊢
        simpa using hx
      rw [if_neg hrev, if_neg hx, List.map_cons]

theorem trimRight_joinNl {ls : List Str}
    (h : ∀ l ∈ ls, ∀ c, l.getLast? = some c → isRustWS c = false) :
    trimRight (joinNl ls) = joinNl (dropBlanksR ls) := by
  have hh : ∀ l ∈ ls.reverse.map List.reverse, ∀ c,
      l.head? = some c → isRustWS c = false := by
    intro l hl c hc
    rw [List.mem_map] at hl
    obtain ⟨x, hx, rfl⟩ := hl
    rw [List.head?_reverse] at hc
    exact h x (List.mem_reverse.mp hx) c hc
  unfold trimRight
  rw [show List.dropWhile isRustWS (joinNl ls).reverse =
      trimLeft (joinNl ls).reverse from rfl,
    reverse_joinNl ls, trimLeft_joinNl hh]
  unfold dropBlanksL dropBlanksR
  rw [dropWhile_isEmpty_map_reverse ls.reverse, reverse_joinNl]
  congr 1
  rw [show (List.map List.reverse
        (List.dropWhile List.isEmpty ls.reverse)).reverse =
      List.map List.reverse (List.dropWhile List.isEmpty ls.reverse).reverse from
      (List.map_reverse _ _).symm,
    List.map_map,
    List.map_congr_left (fun a _ => by simp : ∀ a ∈
      (List.dropWhile List.isEmpty ls.reverse).reverse,
      (List.reverse ∘ List.reverse) a = id a),
    List.map_id]

theorem rustTrim_joinNl {ls : List Str}
    (hhead : ∀ l ∈ ls, ∀ c, l.head? = some c → isRustWS c = false)
    (hlast : ∀ l ∈ ls, ∀ c, l.getLast? = some c → isRustWS c = false) :
    rustTrim (joinNl ls) = joinNl (dropBlanks ls) := by
  show trimLeft (trimRight (joinNl ls)) = _
  rw [trimRight_joinNl hlast,
    trimLeft_joinNl (fun l hl => hhead l (mem_dropBlanksR hl))]
  rfl

theorem mem_of_head?_eq {α : Type} {l : List α} {a : α} (h : l.head? = some a) :
    a ∈ l := by
  cases l with
  | nil => simp at h
  | cons b t =>
    rw [List.head?_cons] at h
    injection h with h
    rw [← h]
    exact List.mem_cons_self b t

theorem mem_of_getLast?_eq {α : Type} {l : List α} {a : α}
    (h : l.getLast? = some a) : a ∈ l := by
  rw [← List.head?_reverse] at h
  rw [← List.mem_reverse]
  exact mem_of_head?_eq h

theorem getLast?_of_suffix {α : Type} {l1 l2 : List α} (h : l1 <:+ l2) {a : α}
    (ha : l1.getLast? = some a) : l2.getLast? = some a := by
  obtain ⟨t, rfl⟩ := h
  rw [List.getLast?_append, ha]
  rfl

theorem head?_dropBlanksL {ls : List Str} {a : Str}
    (h : (dropBlanksL ls).head? = some a) : a ≠ [] := by
  have hd := List.head?_dropWhile_not List.isEmpty ls
  rw [show (dropBlanksL ls).head? = (List.dropWhile List.isEmpty ls).head? from rfl] at h
  rw [h] at hd
  have hd2 : a.isEmpty = false := hd
  intro hcon
  rw [hcon] at hd2
  simp at hd2

theorem getLast?_dropBlanksR {ls : List Str} {a : Str}
    (h : (dropBlanksR ls).getLast? = some a) : a ≠ [] := by
  unfold dropBlanksR at h
  rw [List.getLast?_reverse] at h
  have hd := List.head?_dropWhile_not List.isEmpty ls.reverse
  rw [h] at hd
  have hd2 : a.isEmpty = false := hd
  intro hcon
  rw [hcon] at hd2
  simp at hd2

theorem dropBlanksL_of_head {ls : List Str}
    (h : ∀ a, ls.head? = some a → a ≠ []) : dropBlanksL ls = ls := by
  cases ls with
  | nil => rfl
  | cons a t =>
    unfold dropBlanksL
    rw [List.dropWhile_cons, if_neg]
    rw [List.isEmpty_iff]
    exact h a rfl

theorem dropBlanksR_of_last {ls : List Str}
    (h : ∀ a, ls.getLast? = some a → a ≠ []) : dropBlanksR ls = ls := by
  unfold dropBlanksR
  cases hr : ls.reverse with
  | nil => rw [List.dropWhile_nil, ← hr, List.reverse_reverse]
  | cons a t =>
    have ha : ls.getLast? = some a := by
      rw [← List.head?_reverse, hr, List.head?_cons]
    rw [List.dropWhile_cons, if_neg (by rw [List.isEmpty_iff]; exact h a ha),
      ← hr, List.reverse_reverse]

theorem dropBlanks_of_ends {ls : List Str}
    (hhead : ∀ a, ls.head? = some a → a ≠ [])
    (hlast : ∀ a, ls.getLast? = some a → a ≠ []) : dropBlanks ls = ls := by
  unfold dropBlanks
  rw [dropBlanksR_of_last hlast, dropBlanksL_of_head hhead]

theorem mem_stripCR1 {a : Char} {l : Str} (h : a ∈ stripCR1 l) : a ∈ l := by
  unfold stripCR1 at h
  by_cases hc : l.getLast? = some '\r'
  · rw [if_pos hc] at h
    exact List.Sublist.mem h (List.dropLast_sublist l)
  · rwa [if_neg hc] at h

theorem not_nl_mem_rustLines {s : Str} : ∀ l ∈ rustLines s, '\n' ∉ l := by
  intro l hl
  unfold rustLines at hl
  rw [formLines_eq] at hl
  rcases List.mem_append.mp hl with h1 | h1
  · rw [List.mem_map] at h1
    obtain ⟨x, hx, rfl⟩ := h1
    have hxs : x ∈ splitNl s :=
      List.Sublist.mem hx (List.dropLast_sublist _)
    intro hmem
    exact not_nl_mem_splitNl x hxs (mem_stripCR1 hmem)
  · cases hg : (splitNl s).getLast? with
    | none =>
      rw [hg, show lastPart none = [] from rfl] at h1
      simp at h1
    | some a =>
      rw [hg, show lastPart (some a) = if a = [] then [] else [a] from rfl] at h1
      by_cases ha : a = []
      · rw [if_pos ha] at h1; simp at h1
      · rw [if_neg ha] at h1
        rw [List.mem_singleton] at h1
        subst h1
        exact not_nl_mem_splitNl l (mem_of_getLast?_eq hg)

theorem rustLines_joinNl {ls : List Str} (hne : ls ≠ [])
    (hnl : ∀ l ∈ ls, '\n' ∉ l)
    (hcr : ∀ l ∈ ls, stripCR1 l = l) :
    rustLines (joinNl ls) = ls.dropLast ++ lastPart ls.getLast? := by
  unfold rustLines
  rw [splitNl_joinNl hne hnl, formLines_eq]
  congr 1
  rw [List.map_congr_left
    (fun a ha => hcr a (List.Sublist.mem ha (List.dropLast_sublist ls)))]
  exact List.map_id ls.dropLast

theorem rustLines_joinNl_fix {ls : List Str} (hne : ls ≠ [])
    (hnl : ∀ l ∈ ls, '\n' ∉ l)
    (hcr : ∀ l ∈ ls, stripCR1 l = l)
    (hlast : ∀ a, ls.getLast? = some a → a ≠ []) :
    rustLines (joinNl ls) = ls := by
  rw [rustLines_joinNl hne hnl hcr]
  cases hg : ls.getLast? with
  | none => exact absurd (List.getLast?_eq_none_iff.mp hg) hne
  | some a =>
    rw [show lastPart (some a) = if a = [] then [] else [a] from rfl,
      if_neg (hlast a hg)]
    exact List.dropLast_append_getLast? a (Option.mem_def.mpr hg)

theorem finalPass_eq (s : Str) :
    finalPass s = joinNl (dropBlanks ((rustLines s).map rustTrim)) := by
  unfold finalPass
  apply rustTrim_joinNl
  · intro l hl
    rw [List.mem_map] at hl
    obtain ⟨x, hx, rfl⟩ := hl
    exact rustTrim_head? x
  · intro l hl
    rw [List.mem_map] at hl
    obtain ⟨x, hx, rfl⟩ := hl
    exact rustTrim_getLast? x

theorem finalPass_fix {ls : List Str}
    (htr : ∀ l ∈ ls, rustTrim l = l)
    (hnl : ∀ l ∈ ls, '\n' ∉ l)
    (hhead : ∀ a, ls.head? = some a → a ≠ [])
    (hlast : ∀ a, ls.getLast? = some a → a ≠ []) :
    finalPass (joinNl ls) = joinNl ls := by
  cases hls : ls with
  | nil => rfl
  | cons l0 ls0 =>
    rw [← hls]
    have hne : ls ≠ [] := by rw [hls]; simp
    have hcr : ∀ l ∈ ls, stripCR1 l = l := fun l hl =>
      stripCR1_of_last_not_ws (fun c hc => by
        rw [← htr l hl] at hc
        exact rustTrim_getLast? l c hc)
    have h1 : rustLines (joinNl ls) = ls := rustLines_joinNl_fix hne hnl hcr hlast
    unfold finalPass
    rw [h1, List.map_congr_left htr, List.map_id',
      rustTrim_joinNl
        (fun l hl c hc => by rw [← htr l hl] at hc; exact rustTrim_head? l c hc)
        (fun l hl c hc => by rw [← htr l hl] at hc; exact rustTrim_getLast? l c hc),
      dropBlanks_of_ends hhead hlast]

theorem finalPass_idem (s : Str) : finalPass (finalPass s) = finalPass s := by
  rw [finalPass_eq s]
  apply finalPass_fix
  · intro l hl
    obtain ⟨x, hx, rfl⟩ :=
      List.mem_map.mp (mem_dropBlanksR (mem_dropBlanksL hl))
    exact rustTrim_idem x
  · intro l hl
    obtain ⟨x, hx, rfl⟩ :=
      List.mem_map.mp (mem_dropBlanksR (mem_dropBlanksL hl))
    intro hmem
    exact not_nl_mem_rustLines x hx (mem_rustTrim hmem)
  · intro a ha
    exact head?_dropBlanksL ha
  · intro a ha
    by_cases hnil : dropBlanks ((rustLines s).map rustTrim) = []
    · rw [hnil] at ha
      simp at ha
    · have hsuff : dropBlanks ((rustLines s).map rustTrim) <:+
          dropBlanksR ((rustLines s).map rustTrim) := List.dropWhile_suffix _
      exact getLast?_dropBlanksR (getLast?_of_suffix hsuff ha)

theorem ws_space : isRustWS ' ' = true := by decide

theorem splitWSAux_nil (acc : Str) :
    splitWSAux [] acc = if acc = [] then [] else [acc.reverse] := rfl

theorem splitWSAux_cons_word {c : Char} (hc : isRustWS c = false)
    (rest acc : Str) :
    splitWSAux (c :: rest) acc = splitWSAux rest (c :: acc) := by
  simp only [splitWSAux]
  rw [if_neg (by simp [hc])]

theorem splitWSAux_cons_ws {c : Char} (hc : isRustWS c = true)
    (rest acc : Str) (ha : acc ≠ []) :
    splitWSAux (c :: rest) acc = acc.reverse :: splitWSAux rest [] := by
  simp only [splitWSAux]
  rw [if_pos hc, if_neg ha]

theorem splitWSAux_cons_ws_nil {c : Char} (hc : isRustWS c = true) (rest : Str) :
    splitWSAux (c :: rest) [] = splitWSAux rest [] := by
  simp only [splitWSAux]
  rw [if_pos hc]
  simp

theorem splitWSAux_append_word {w : Str} :
    (∀ c ∈ w, isRustWS c = false) →
    ∀ (t acc : Str), splitWSAux (w ++ t) acc = splitWSAux t (w.reverse ++ acc) := by
  induction w with
  | nil => intro _ t acc; simp
  | cons c u ih =>
    intro hw t acc
    have hc : isRustWS c = false := hw c (by simp)
    rw [List.cons_append, splitWSAux_cons_word hc,
      ih (fun x hx => hw x (by simp [hx])) t (c :: acc)]
    congr 1
    simp

theorem splitWSAux_wf : ∀ (l acc : Str), (∀ c ∈ acc, isRustWS c = false) →
    ∀ w ∈ splitWSAux l acc, w ≠ [] ∧ ∀ c ∈ w, isRustWS c = false := by
  intro l
  induction l with
  | nil =>
    intro acc hacc w hw
    rw [splitWSAux_nil] at hw
    by_cases ha : acc = []
    · rw [if_pos ha] at hw
      simp at hw
    · rw [if_neg ha] at hw
      rw [List.mem_singleton] at hw
      subst hw
      exact ⟨by simpa using ha, fun c hc => hacc c (List.mem_reverse.mp hc)⟩
  | cons d r ih =>
    intro acc hacc w hw
    by_cases hd : isRustWS d = true
    · by_cases ha : acc = []
      · subst ha
        rw [splitWSAux_cons_ws_nil hd] at hw
        exact ih [] (by simp) w hw
      · rw [splitWSAux_cons_ws hd _ _ ha] at hw
        rcases List.mem_cons.mp hw with h1 | h1
        · subst h1
          exact ⟨by simpa using ha, fun c hc => hacc c (List.mem_reverse.mp hc)⟩
        · exact ih [] (by simp) w h1
    · rw [splitWSAux_cons_word (by simpa using hd)] at hw
      refine ih (d :: acc) ?_ w hw
      intro c hc
      rcases List.mem_cons.mp hc with h1 | h1
      · subst h1
        simpa using hd
      · exact hacc c h1

theorem splitWS_wf (l : Str) :
    ∀ w ∈ splitWS l, w ≠ [] ∧ ∀ c ∈ w, isRustWS c = false :=
  splitWSAux_wf l [] (by simp)

theorem splitWS_joinSpace : ∀ {ws : List Str},
    (∀ w ∈ ws, w ≠ [] ∧ ∀ c ∈ w, isRustWS c = false) →
    splitWS (joinSpace ws) = ws
  | [], _ => rfl
  | [w], h => by
    unfold splitWS
    rw [show joinSpace [w] = w from rfl, ← List.append_nil w,
      splitWSAux_append_word (h w (by simp)).2 [] [], splitWSAux_nil]
    rw [if_neg (by simp [(h w (by simp)).1])]
    simp
  | w :: w2 :: ws, h => by
    unfold splitWS
    rw [show joinSpace (w :: w2 :: ws) = w ++ ' ' :: joinSpace (w2 :: ws) from rfl,
      splitWSAux_append_word (h w (by simp)).2,
      splitWSAux_cons_ws ws_space _ _ (by simp [(h w (by simp)).1])]
    have hrest : splitWSAux (joinSpace (w2 :: ws)) [] = w2 :: ws :=
      splitWS_joinSpace (fun x hx => h x (List.mem_cons_of_mem w hx))
    rw [hrest]
    congr 1
    simp

theorem splitWSAux_append_ws {c : Char} (hc : isRustWS c = true) :
    ∀ (l acc : Str), splitWSAux (l ++ [c]) acc = splitWSAux l acc
  | [], acc => by
    rw [List.nil_append]
    by_cases ha : acc = []
    · subst ha
      rw [splitWSAux_cons_ws_nil hc]
    · rw [splitWSAux_cons_ws hc _ _ ha, splitWSAux_nil, splitWSAux_nil,
        if_neg ha]
      rfl
  | d :: r, acc => by
    rw [List.cons_append]
    by_cases hd : isRustWS d = true
    · by_cases ha : acc = []
      · subst ha
        rw [splitWSAux_cons_ws_nil hd, splitWSAux_cons_ws_nil hd,
          splitWSAux_append_ws hc r []]
      · rw [splitWSAux_cons_ws hd _ _ ha, splitWSAux_cons_ws hd _ _ ha,
          splitWSAux_append_ws hc r []]
    · rw [splitWSAux_cons_word (by simpa using hd),
        splitWSAux_cons_word (by simpa using hd),
        splitWSAux_append_ws hc r (d :: acc)]

theorem collapseWS_stripCR1 (l : Str) : collapseWS (stripCR1 l) = collapseWS l := by
  unfold stripCR1
  by_cases h : l.getLast? = some '\r'
  · rw [if_pos h]
    unfold collapseWS splitWS
    have hl : l.dropLast ++ ['\r'] = l :=
      List.dropLast_append_getLast? '\r' (Option.mem_def.mpr h)
    congr 1
    calc splitWSAux l.dropLast []
        = splitWSAux (l.dropLast ++ ['\r']) [] :=
          (splitWSAux_append_ws ws_cr _ _).symm
      _ = splitWSAux l [] := by rw [hl]
  · rw [if_neg h]

theorem collapseWS_idem (l : Str) : collapseWS (collapseWS l) = collapseWS l := by
  show joinSpace (splitWS (joinSpace (splitWS l))) = joinSpace (splitWS l)
  rw [splitWS_joinSpace (splitWS_wf l)]

theorem joinSpace_ne_nil {ws : List Str} (hne : ws ≠ [])
    (h : ∀ w ∈ ws, w ≠ []) : joinSpace ws ≠ [] := by
  cases ws with
  | nil => exact absurd rfl hne
  | cons w r =>
    cases r with
    | nil =>
      exact h w (by simp)
    | cons w2 r2 =>
      rw [show joinSpace (w :: w2 :: r2) = w ++ ' ' :: joinSpace (w2 :: r2) from rfl]
      cases hw : w with
      | nil => exact absurd hw (h w (by simp))
      | cons a t => exact List.cons_ne_nil a _

theorem joinSpace_head? : ∀ {ws : List Str},
    (∀ w ∈ ws, w ≠ [] ∧ ∀ c ∈ w, isRustWS c = false) →
    ∀ c, (joinSpace ws).head? = some c → isRustWS c = false
  | [], _, c, hc => by simp [joinSpace] at hc
  | [w], h, c, hc => by
    rw [show joinSpace [w] = w from rfl] at hc
    exact (h w (by simp)).2 c (mem_of_head?_eq hc)
  | w :: w2 :: ws, h, c, hc => by
    rw [show joinSpace (w :: w2 :: ws) = w ++ ' ' :: joinSpace (w2 :: ws) from rfl] at hc
    cases hw : w with
    | nil => exact absurd hw (h w (by simp)).1
    | cons a t =>
      rw [hw, List.cons_append, List.head?_cons] at hc
      injection hc with hc2
      rw [← hc2]
      exact (h w (by simp)).2 a (by rw [hw]; exact List.mem_cons_self a t)

theorem joinSpace_getLast? : ∀ {ws : List Str},
    (∀ w ∈ ws, w ≠ [] ∧ ∀ c ∈ w, isRustWS c = false) →
    ∀ c, (joinSpace ws).getLast? = some c → isRustWS c = false
  | [], _, c, hc => by simp [joinSpace] at hc
  | [w], h, c, hc => by
    rw [show joinSpace [w] = w from rfl] at hc
    exact (h w (by simp)).2 c (mem_of_getLast?_eq hc)
  | w :: w2 :: ws, h, c, hc => by
    rw [show joinSpace (w :: w2 :: ws) = w ++ ' ' :: joinSpace (w2 :: ws) from rfl,
      List.getLast?_append] at hc
    have hJ : joinSpace (w2 :: ws) ≠ [] :=
      joinSpace_ne_nil (by simp) (fun x hx => (h x (List.mem_cons_of_mem w hx)).1)
    cases hJ2 : joinSpace (w2 :: ws) with
    | nil => exact absurd hJ2 hJ
    | cons j0 jr =>
      rw [hJ2, List.getLast?_cons_cons] at hc
      have hc2 : (joinSpace (w2 :: ws)).getLast? = some c := by
        rw [hJ2]
        cases hg : (j0 :: jr).getLast? with
        | none => simp at hg
        | some b =>
          rw [hg] at hc
          exact hc
      exact joinSpace_getLast?
        (fun x hx => h x (List.mem_cons_of_mem w hx)) c hc2

theorem not_nl_mem_joinSpace : ∀ {ws : List Str},
    (∀ w ∈ ws, ∀ c ∈ w, isRustWS c = false) → '\n' ∉ joinSpace ws
  | [], _ => by simp [joinSpace]
  | [w], h => by
    intro hmem
    have := h w (by simp) '\n' hmem
    rw [ws_nl] at this
    exact absurd this (by decide)
  | w :: w2 :: ws, h => by
    intro hmem
    rw [show joinSpace (w :: w2 :: ws) = w ++ ' ' :: joinSpace (w2 :: ws) from rfl] at hmem
    rcases List.mem_append.mp hmem with h1 | h1
    · have := h w (by simp) '\n' h1
      rw [ws_nl] at this
      exact absurd this (by decide)
    · rcases List.mem_cons.mp h1 with h2 | h2
      · exact absurd h2.symm (by decide)
      · exact not_nl_mem_joinSpace
          (fun x hx => h x (List.mem_cons_of_mem w hx)) h2

theorem rustTrim_collapseWS (x : Str) :
    rustTrim (collapseWS x) = collapseWS x := by
  show trimLeft (trimRight (joinSpace (splitWS x))) = joinSpace (splitWS x)
  rw [trimRight_eq_self (joinSpace_getLast? (splitWS_wf x)),
    trimLeft_eq_self (joinSpace_head? (splitWS_wf x))]

theorem not_nl_mem_collapseWS (x : Str) : '\n' ∉ collapseWS x :=
  not_nl_mem_joinSpace (fun w hw => (splitWS_wf x w hw).2)

theorem mem_lastPart {o : Option Str} {l : Str} (h : l ∈ lastPart o) :
    o = some l := by
  cases o with
  | none => simp [lastPart] at h
  | some a =>
    rw [show lastPart (some a) = if a = [] then [] else [a] from rfl] at h
    by_cases ha : a = []
    · rw [if_pos ha] at h
      simp at h
    · rw [if_neg ha] at h
      rw [List.mem_singleton] at h
      rw [h]

theorem wsPass_def (s : Str) :
    wsPass s = joinNl ((rustLines s).map collapseWS) := rfl

theorem finalPass_joinNl_collapsed {cs : List Str}
    (hel : ∀ l ∈ cs, ∃ x, l = collapseWS x) :
    finalPass (joinNl cs) =
      joinNl (dropBlanks (cs.dropLast ++ lastPart cs.getLast?)) := by
  cases hcs : cs with
  | nil => rfl
  | cons c0 cs0 =>
    rw [← hcs]
    have hne : cs ≠ [] := by rw [hcs]; exact List.cons_ne_nil _ _
    have hnl : ∀ l ∈ cs, '\n' ∉ l := by
      intro l hl
      obtain ⟨x, rfl⟩ := hel l hl
      exact not_nl_mem_collapseWS x
    have hcr : ∀ l ∈ cs, stripCR1 l = l := by
      intro l hl
      obtain ⟨x, rfl⟩ := hel l hl
      exact stripCR1_of_last_not_ws (joinSpace_getLast? (splitWS_wf x))
    have hmemX : ∀ l ∈ cs.dropLast ++ lastPart cs.getLast?, ∃ x, l = collapseWS x := by
      intro l hl
      rcases List.mem_append.mp hl with h2 | h2
      · exact hel l (List.Sublist.mem h2 (List.dropLast_sublist cs))
      · exact hel l (mem_of_getLast?_eq (mem_lastPart h2))
    unfold finalPass
    rw [rustLines_joinNl hne hnl hcr,
      List.map_congr_left (g := fun a => a) (fun a ha => by
        obtain ⟨x, rfl⟩ := hmemX a ha
        exact rustTrim_collapseWS x),
      List.map_id',
      rustTrim_joinNl
        (fun l hl c hc => by
          obtain ⟨x, rfl⟩ := hmemX l hl
          exact joinSpace_head? (splitWS_wf x) c hc)
        (fun l hl c hc => by
          obtain ⟨x, rfl⟩ := hmemX l hl
          exact joinSpace_getLast? (splitWS_wf x) c hc)]

theorem wsPass_fix {ds : List Str}
    (hel : ∀ l ∈ ds, ∃ x, l = collapseWS x)
    (hlast : ∀ a, ds.getLast? = some a → a ≠ []) :
    wsPass (joinNl ds) = joinNl ds := by
  cases hds : ds with
  | nil => rfl
  | cons d0 ds0 =>
    rw [← hds]
    have hne : ds ≠ [] := by rw [hds]; exact List.cons_ne_nil _ _
    have hnl : ∀ l ∈ ds, '\n' ∉ l := by
      intro l hl
      obtain ⟨x, rfl⟩ := hel l hl
      exact not_nl_mem_collapseWS x
    have hcr : ∀ l ∈ ds, stripCR1 l = l := by
      intro l hl
      obtain ⟨x, rfl⟩ := hel l hl
      exact stripCR1_of_last_not_ws (joinSpace_getLast? (splitWS_wf x))
    rw [wsPass_def, rustLines_joinNl_fix hne hnl hcr hlast,
      List.map_congr_left (g := fun a => a) (fun a ha => by
        obtain ⟨x, rfl⟩ := hel a ha
        exact collapseWS_idem x),
      List.map_id']

theorem wsPass_finalPass_wsPass (s : Str) :
    wsPass (finalPass (wsPass s)) = finalPass (wsPass s) := by
  have hel : ∀ l ∈ (rustLines s).map collapseWS, ∃ x, l = collapseWS x := by
    intro l hl
    obtain ⟨x, _, rfl⟩ := List.mem_map.mp hl
    exact ⟨x, rfl⟩
  rw [wsPass_def s, finalPass_joinNl_collapsed hel]
  apply wsPass_fix
  · intro l hl
    have h2 := mem_dropBlanksR (mem_dropBlanksL hl)
    rcases List.mem_append.mp h2 with h3 | h3
    · exact hel l (List.Sublist.mem h3 (List.dropLast_sublist _))
    · exact hel l (mem_of_getLast?_eq (mem_lastPart h3))
  · intro a ha
    have hsuff : dropBlanks (((rustLines s).map collapseWS).dropLast ++
        lastPart ((rustLines s).map collapseWS).getLast?) <:+
        dropBlanksR (((rustLines s).map collapseWS).dropLast ++
          lastPart ((rustLines s).map collapseWS).getLast?) :=
      List.dropWhile_suffix _
    exact getLast?_dropBlanksR (getLast?_of_suffix hsuff ha)

theorem finalPass_replaceCRLF (s : Str) :
    finalPass (replaceCRLF s) = finalPass s := by
  unfold finalPass
  rw [map_rustLines_replaceCRLF rustTrim_stripCR1 s]

theorem wsPass_replaceCRLF (s : Str) : wsPass (replaceCRLF s) = wsPass s := by
  rw [wsPass_def, wsPass_def, map_rustLines_replaceCRLF collapseWS_stripCR1 s]

theorem normalize_ff (s : Str) :
    normalize_output_with ⟨false, false⟩ s = finalPass s := rfl

theorem normalize_ft (s : Str) :
    normalize_output_with ⟨false, true⟩ s = finalPass (wsPass s) := rfl

theorem normalize_tf (s : Str) :
    normalize_output_with ⟨true, false⟩ s = finalPass (replaceCRLF s) := rfl

theorem normalize_tt (s : Str) :
    normalize_output_with ⟨true, true⟩ s = finalPass (wsPass (replaceCRLF s)) := rfl

/-- C6: for every normalization configuration (both settings of
normalize_crlf and ignore_extra_whitespace) and every string,
Judge::normalize_output_with is idempotent. -/
theorem c6_normalization_idempotent (opts : NormalizationOptions) (s : Str) :
    normalize_output_with opts (normalize_output_with opts s) =
      normalize_output_with opts s := by
  obtain ⟨b, iw⟩ := opts
  cases b <;> cases iw
  · rw [normalize_ff, normalize_ff, finalPass_idem]
  · rw [normalize_ft, normalize_ft, wsPass_finalPass_wsPass, finalPass_idem]
  · rw [normalize_tf, normalize_tf,
      finalPass_replaceCRLF (finalPass (replaceCRLF s)), finalPass_idem]
  · rw [normalize_tt, normalize_tt,
      wsPass_replaceCRLF (finalPass (wsPass (replaceCRLF s))),
      wsPass_finalPass_wsPass, finalPass_idem]

/-- C10: normalization is insensitive to the normalize_crlf option —
for every string and either setting of ignore_extra_whitespace the
result with normalize_crlf on equals the result with it off (the final
pass's lines() already strips the CR of every CRLF, and trim/collapse
absorb the rest); consequently two outputs that differ only in CRLF
versus LF line endings (equal after CRLF collapsing) normalize
identically under every configuration, so the option has no observable
effect on pass/fail. -/
theorem c10_normalize_crlf_no_observable_effect :
    (∀ (iw : Bool) (s : Str),
      normalize_output_with ⟨true, iw⟩ s = normalize_output_with ⟨false, iw⟩ s) ∧
    (∀ (opts : NormalizationOptions) (s t : Str), replaceCRLF s = replaceCRLF t →
      normalize_output_with opts s = normalize_output_with opts t) := by
  have hinv : ∀ (b iw : Bool) (s : Str),
      normalize_output_with ⟨b, iw⟩ (replaceCRLF s) =
        normalize_output_with ⟨b, iw⟩ s := by
    intro b iw s
    cases b <;> cases iw
    · rw [normalize_ff, normalize_ff, finalPass_replaceCRLF]
    · rw [normalize_ft, normalize_ft, wsPass_replaceCRLF]
    · rw [normalize_tf, normalize_tf, finalPass_replaceCRLF (replaceCRLF s)]
    · rw [normalize_tt, normalize_tt, wsPass_replaceCRLF (replaceCRLF s)]
  constructor
  · intro iw s
    have h1 : normalize_output_with ⟨true, iw⟩ s =
        normalize_output_with ⟨false, iw⟩ (replaceCRLF s) := by
      cases iw
      · rw [normalize_tf, normalize_ff]
      · rw [normalize_tt, normalize_ft]
    rw [h1, hinv false iw s]
  · intro opts s t h
    obtain ⟨b, iw⟩ := opts
    rw [← hinv b iw s, ← hinv b iw t, h]

end DSAPrac
